import Mathlib

/-!
Verification development for the csharp_repomap extraction-and-ranking
pipeline (source files: `parser.py`, `ranker.py`, `generator.py`).

The Python source is shallowly embedded in Lean:

* pure string manipulation is modelled on `List Char` (Python `str` is a
  sequence of characters, and Python indexing/len are character based);
* the tree-sitter syntax tree is an external collaborator of the source;
  it is modelled as an explicit tree (`TSNode`) whose `text` field carries
  the already-decoded text of the node's byte span (the byte slicing of
  `_get_node_text` happens at the tree-sitter boundary);
* Python `float` arithmetic on ranks and boosts is modelled with `ℚ`
  (the claims under study do not depend on rounding behaviour);
* the networkx PageRank backend is external; it is modelled from the
  spec, see `pagerankSpec` below;
* fallible steps return `Option`.
-/

namespace CSRM

/-! ## Character-level primitives (Python `str` / `re` behaviour) -/

/-- Python `\s` (ASCII whitespace as used by `str.strip`, `str.split`, `re \s`). -/
def pySpace (c : Char) : Bool :=
  c = ' ' || c = '\t' || c = '\n' || c = '\r' || c = '\x0b' || c = '\x0c'

/-- Python regex `\w`: word character (letter, digit or underscore). -/
def isWordChar (c : Char) : Bool :=
  c.isAlphanum || c = '_'

/-- Python `str.strip()`: drop leading and trailing whitespace. -/
def pyStrip (cs : List Char) : List Char :=
  ((cs.dropWhile pySpace).reverse.dropWhile pySpace).reverse

/-- Python `str.lower()` on identifier-like text, character by character. -/
def lowerChars (cs : List Char) : List Char :=
  cs.map Char.toLower

/-- Python `str.isupper()`: at least one cased character and no lowercase
cased character (for the ASCII identifiers at hand, cased = letter). -/
def pyIsUpper (cs : List Char) : Bool :=
  cs.any Char.isAlpha && cs.all (fun c => !c.isAlpha || c.isUpper)

/-- Membership of a literal prefix: Python `str.startswith`. -/
def startsWithChars (p cs : List Char) : Bool :=
  p.isPrefixOf cs

theorem dropWhile_len_le {α : Type} (p : α → Bool) (l : List α) :
    (l.dropWhile p).length ≤ l.length := by
  induction l with
  | nil => simp
  | cons c cs ih =>
    by_cases h : p c
    · simp [List.dropWhile, h]
      omega
    · simp [List.dropWhile, h]

/-- Python `str.split()` with no argument: split on whitespace runs,
dropping empty fields.  (On a word character the word is the maximal
non-space run starting there.)  Structural recursion on a fuel counter so
that the function reduces inside the kernel; every step consumes at least
one character, so `fuel = length` is always sufficient. -/
def pySplitWsGo : Nat → List Char → List (List Char)
  | 0, _ => []
  | _, [] => []
  | fuel + 1, c :: cs =>
    if pySpace c then pySplitWsGo fuel cs
    else (c :: cs.takeWhile (fun d => !pySpace d)) ::
      pySplitWsGo fuel (cs.dropWhile (fun d => !pySpace d))

def pySplitWs (cs : List Char) : List (List Char) :=
  pySplitWsGo cs.length cs

/-! ## Data model (`parser.py`: `Symbol`, `Reference`) -/

/-- `parser.Symbol`: one declared type or member.  The Python field
`namespace` is called `ns` here (keyword clash). -/
structure Symbol where
  name : String
  kind : String
  file : String
  line : Nat
  signature : String
  ns : String
  parentClass : String
  baseClass : String
  interfaces : List String
  modifiers : List String
deriving DecidableEq, Repr

/-- `parser.Reference`: a directed edge between symbol names. -/
structure Reference where
  fromFile : String
  fromSymbol : String
  toSymbol : String
  refType : String
deriving DecidableEq, Repr

/-! ## Identifier validity filter (`CSharpParser._is_valid_type_name`) -/

/-- The `INVALID_NAMES` keyword set of `_extract_type_info` (compared
against the lowercased candidate). -/
def INVALID_NAMES : List (List Char) :=
  ["class".data, "struct".data, "interface".data, "enum".data, "namespace".data,
   "using".data, "public".data, "private".data, "protected".data, "internal".data,
   "abstract".data, "sealed".data, "static".data, "partial".data, "readonly".data,
   "virtual".data, "override".data, "new".data, "void".data, "int".data,
   "string".data, "bool".data, "float".data, "double".data, "object".data,
   "var".data, "dynamic".data, "async".data, "await".data, "return".data,
   "if".data, "else".data, "for".data, "foreach".data, "while".data, "do".data,
   "switch".data, "case".data, "break".data, "continue".data, "throw".data,
   "try".data, "catch".data, "finally".data, "null".data, "true".data,
   "false".data]

/-- Regex `^[A-Za-z_][A-Za-z0-9_]*$` of `_is_valid_type_name`. -/
def isIdentFormat : List Char → Bool
  | [] => false
  | c :: rest => (c.isAlpha || c = '_') && rest.all (fun d => d.isAlphanum || d = '_')

/-- Regex `^[msc]_` of `_is_valid_type_name` (field naming pattern). -/
def isFieldNamePat : List Char → Bool
  | c0 :: c1 :: _ => (c0 = 'm' || c0 = 's' || c0 = 'c') && c1 = '_'
  | _ => false

/-- The vowel set of `_is_valid_type_name`. -/
def isVowel (c : Char) : Bool :=
  c = 'a' || c = 'e' || c = 'i' || c = 'o' || c = 'u' ||
  c = 'A' || c = 'E' || c = 'I' || c = 'O' || c = 'U'

/-- `CSharpParser._is_valid_type_name`, step for step. -/
def isValidTypeName (name : String) : Bool :=
  let cs := name.data
  if cs.isEmpty then false
  else if !isIdentFormat cs then false
  else if lowerChars cs ∈ INVALID_NAMES then false
  else if isFieldNamePat cs then false
  else if (match cs with
           | c :: _ => c.isLower && !(startsWithChars ['_'] cs)
           | [] => false) then false
  else if cs.length < 4 && !pyIsUpper cs then false
  else if cs.length > 3 && (cs.length > 5 && !cs.any isVowel) then false
  else true

/-! ## Syntax tree model

The tree-sitter parse tree is an external collaborator (`tree_sitter_c_sharp`).
A node is modelled by its `type`, the decoded text of its byte span
(`_get_node_text`), its starting row (`start_point[0]`) and its children
(including anonymous token nodes, which py-tree-sitter exposes in
`node.children` with their own text as `type`). -/

mutual
inductive TSNode where
  | mk (ntype : String) (text : String) (row : Nat) (children : TSForest)
inductive TSForest where
  | nil
  | cons (hd : TSNode) (tl : TSForest)
end

/-- Build a forest from a list literal (for writing concrete trees). -/
def forest : List TSNode → TSForest
  | [] => .nil
  | c :: cs => .cons c (forest cs)

def TSNode.ntype : TSNode → String
  | .mk t _ _ _ => t

def TSNode.text : TSNode → String
  | .mk _ x _ _ => x

def TSNode.row : TSNode → Nat
  | .mk _ _ r _ => r

def TSNode.children : TSNode → TSForest
  | .mk _ _ _ c => c

/-! ## Primary-path extraction (`CSharpParser._parse_with_tree_sitter`) -/

/-- `_extract_namespace`: the first `qualified_name`/`identifier` child of
the first namespace declaration child that has one; `""` otherwise. -/
def findNsName : TSForest → Option String
  | .nil => none
  | .cons s rest =>
    if s.ntype = "qualified_name" || s.ntype = "identifier" then some s.text
    else findNsName rest

def extractNamespaceAst : TSForest → String
  | .nil => ""
  | .cons child rest =>
    if child.ntype = "namespace_declaration" ||
       child.ntype = "file_scoped_namespace_declaration" then
      match findNsName child.children with
      | some t => t
      | none => extractNamespaceAst rest
    else extractNamespaceAst rest

/-- Regex `^[A-Za-z_][A-Za-z0-9_<>]*$` used on base-list entries in
`_extract_type_info`. -/
def isBaseNameFormat (s : String) : Bool :=
  match s.data with
  | [] => false
  | c :: rest => (c.isAlpha || c = '_') &&
      rest.all (fun d => d.isAlphanum || d = '_' || d = '<' || d = '>')

/-- Regex `^I[A-Z]` (interface naming convention). -/
def isIfaceName (s : String) : Bool :=
  match s.data with
  | c0 :: c1 :: _ => c0 = 'I' && c1.isUpper
  | _ => false

/-- `re.sub(r'<[^>]+>', '<T>', text)`: replace every non-overlapping
`<...>` group (with at least one non-`>` character inside) by `<T>`.
Structural recursion on a fuel counter (each step consumes at least one
character, so `fuel = length` is always sufficient). -/
def subGenericsGo : Nat → List Char → List Char
  | 0, l => l
  | _, [] => []
  | fuel + 1, c :: rest =>
    if c = '<' then
      let run := rest.takeWhile (fun d => !(d = '>'))
      if run.length ≥ 1 && ((rest.drop run.length).headD ' ') = '>' then
        '<' :: 'T' :: '>' :: subGenericsGo fuel (rest.drop (run.length + 1))
      else c :: subGenericsGo fuel rest
    else c :: subGenericsGo fuel rest

def subGenerics (s : String) : String :=
  ⟨subGenericsGo s.data.length s.data⟩

/-- `_extract_base_list`: base type names from a `base_list` node. -/
def extractBaseListInner : TSForest → List String
  | .nil => []
  | .cons sub rest =>
    (if sub.ntype = "identifier" || sub.ntype = "qualified_name" ||
        sub.ntype = "generic_name" then [subGenerics sub.text] else []) ++
    extractBaseListInner rest

def extractBaseList : TSForest → List String
  | .nil => []
  | .cons child rest =>
    (if child.ntype = "identifier" || child.ntype = "qualified_name" ||
        child.ntype = "generic_name" then [subGenerics child.text]
     else if child.ntype = "base_type" then extractBaseListInner child.children
     else []) ++
    extractBaseList rest

/-- The modifier vocabulary accepted by `_extract_type_info`. -/
def typeModifierSet : List String :=
  ["public", "private", "protected", "internal", "abstract",
   "sealed", "static", "partial", "readonly", "virtual", "override"]

/-- The base-list loop of `_extract_type_info`: validated entries matching
`^I[A-Z]` are interfaces, the first other entry becomes the base class. -/
def baseListFold (bases : List String) (base : String) (ifaces : List String) :
    String × List String :=
  bases.foldl
    (fun (acc : String × List String) b =>
      if b ≠ "" && isBaseNameFormat b then
        if isIfaceName b then (acc.1, acc.2 ++ [b])
        else if acc.1 = "" then (b, acc.2)
        else acc
      else acc)
    (base, ifaces)

/-- State fold of `_extract_type_info` over the declaration's children:
(name, base, interfaces, modifiers). -/
def extractTypeInfoGo : TSForest → String → String → List String → List String →
    String × String × List String × List String
  | .nil, name, base, ifaces, mods => (name, base, ifaces, mods)
  | .cons child rest, name, base, ifaces, mods =>
    if child.ntype = "identifier" && name = "" then
      if child.text ≠ "" && isValidTypeName child.text then
        extractTypeInfoGo rest child.text base ifaces mods
      else
        extractTypeInfoGo rest name base ifaces mods
    else if child.ntype = "modifier" then
      if child.text ∈ typeModifierSet then
        extractTypeInfoGo rest name base ifaces (mods ++ [child.text])
      else
        extractTypeInfoGo rest name base ifaces mods
    else if child.ntype = "base_list" then
      extractTypeInfoGo rest name
        (baseListFold (extractBaseList child.children) base ifaces).1
        (baseListFold (extractBaseList child.children) base ifaces).2 mods
    else
      extractTypeInfoGo rest name base ifaces mods

/-- `CSharpParser._extract_type_info`. -/
def extractTypeInfo (node : TSNode) : String × String × List String × List String :=
  extractTypeInfoGo node.children "" "" [] []

/-- `CSharpParser._build_type_signature`. -/
def buildTypeSignature (name base : String) (ifaces mods : List String)
    (kind : String) : String :=
  let modStr := if mods.isEmpty then "" else String.intercalate " " mods ++ " "
  let inher := (if base = "" then [] else [base]) ++ ifaces
  if inher.isEmpty then modStr ++ kind ++ " " ++ name
  else modStr ++ kind ++ " " ++ name ++ " : " ++ String.intercalate ", " inher

/-- `CSharpParser._extract_params`: each `parameter` child rendered as its
last two whitespace-separated tokens. -/
def extractParams : TSForest → List String
  | .nil => []
  | .cons child rest =>
    (if child.ntype = "parameter" then
      let parts := pySplitWs (pyStrip child.text.data)
      if parts.length ≥ 2 then
        [⟨parts.getD (parts.length - 2) []⟩ ++ " " ++ ⟨parts.getLastD []⟩]
      else if !parts.isEmpty then [(⟨parts.getLastD []⟩ : String)]
      else []
     else []) ++
    extractParams rest

/-- The return-type node kinds of `_extract_method`. -/
def methodTypeKinds : List String :=
  ["predefined_type", "identifier", "qualified_name", "generic_name",
   "nullable_type", "array_type"]

/-- State fold of `_extract_method` over the method node's children. -/
def extractMethodGo : TSForest → String → String → List String → List String →
    String × String × List String × List String
  | .nil, name, ret, mods, params => (name, ret, mods, params)
  | .cons child rest, name, ret, mods, params =>
    if child.ntype = "identifier" then
      extractMethodGo rest child.text ret mods params
    else if child.ntype = "modifier" then
      extractMethodGo rest name ret (mods ++ [child.text]) params
    else if child.ntype ∈ methodTypeKinds then
      if name = "" then extractMethodGo rest name child.text mods params
      else extractMethodGo rest name ret mods params
    else if child.ntype = "parameter_list" then
      extractMethodGo rest name ret mods (extractParams child.children)
    else
      extractMethodGo rest name ret mods params

/-- `CSharpParser._extract_method`: records a `method` symbol only for a
named, explicitly `public` method. -/
def extractMethod (fp ns className : String) (node : TSNode) : Option Symbol :=
  let (name, ret, mods, params) := extractMethodGo node.children "" "" [] []
  if name ≠ "" && "public" ∈ mods then
    let paramStr := if params.isEmpty then "" else String.intercalate ", " params
    some
      { name := name
        kind := "method"
        file := fp
        line := node.row + 1
        signature := ret ++ " " ++ name ++ "(" ++ paramStr ++ ")"
        ns := ns
        parentClass := className
        baseClass := ""
        interfaces := []
        modifiers := mods }
  else none

/-- The property type node kinds of `_extract_property`. -/
def propertyTypeKinds : List String :=
  ["predefined_type", "identifier", "qualified_name", "generic_name",
   "nullable_type"]

/-- State fold of `_extract_property`. -/
def extractPropertyGo : TSForest → String → String → List String →
    String × String × List String
  | .nil, name, ty, mods => (name, ty, mods)
  | .cons child rest, name, ty, mods =>
    if child.ntype = "identifier" then
      extractPropertyGo rest child.text ty mods
    else if child.ntype = "modifier" then
      extractPropertyGo rest name ty (mods ++ [child.text])
    else if child.ntype ∈ propertyTypeKinds then
      if name = "" then extractPropertyGo rest name child.text mods
      else extractPropertyGo rest name ty mods
    else
      extractPropertyGo rest name ty mods

/-- `CSharpParser._extract_property`. -/
def extractProperty (fp ns className : String) (node : TSNode) : Option Symbol :=
  let (name, ty, mods) := extractPropertyGo node.children "" "" []
  if name ≠ "" && "public" ∈ mods then
    some
      { name := name
        kind := "property"
        file := fp
        line := node.row + 1
        signature := ty ++ " " ++ name ++ " \x7b get; set; \x7d"
        ns := ns
        parentClass := className
        baseClass := ""
        interfaces := []
        modifiers := mods }
  else none

/-- Members of one `declaration_list` node (`_extract_members` inner loop). -/
def extractMembersInner (fp ns className : String) : TSForest → List Symbol
  | .nil => []
  | .cons m rest =>
    (if m.ntype = "method_declaration" then
       (extractMethod fp ns className m).toList
     else if m.ntype = "property_declaration" then
       (extractProperty fp ns className m).toList
     else []) ++
    extractMembersInner fp ns className rest

/-- `CSharpParser._extract_members` (adds no references). -/
def extractMembers (fp ns className : String) : TSForest → List Symbol
  | .nil => []
  | .cons child rest =>
    (if child.ntype = "declaration_list" then
       extractMembersInner fp ns className child.children
     else []) ++
    extractMembers fp ns className rest

/-- The `type_kinds` table of `_extract_types`. -/
def typeKindOf (t : String) : Option String :=
  if t = "class_declaration" then some "class"
  else if t = "struct_declaration" then some "struct"
  else if t = "interface_declaration" then some "interface"
  else if t = "enum_declaration" then some "enum"
  else none

mutual
/-- `CSharpParser._extract_types` over a child list: symbols and references,
in the order the mutable Python lists receive them. -/
def extractTypesForest (fp ns parentClass : String) :
    TSForest → List Symbol × List Reference
  | .nil => ([], [])
  | .cons child rest =>
    let front := extractTypesNode fp ns parentClass child
    let back := extractTypesForest fp ns parentClass rest
    (front.1 ++ back.1, front.2 ++ back.2)

/-- One iteration of the `_extract_types` child loop. -/
def extractTypesNode (fp ns parentClass : String) :
    TSNode → List Symbol × List Reference
  | .mk t x r ch =>
    match typeKindOf t with
    | some kind =>
      let (name, base, ifaces, mods) := extractTypeInfo (.mk t x r ch)
      if name ≠ "" then
        let line := r + 1
        let sig := buildTypeSignature name base ifaces mods kind
        let sym : Symbol :=
          { name := name, kind := kind, file := fp, line := line,
            signature := sig, ns := ns, parentClass := parentClass,
            baseClass := base, interfaces := ifaces, modifiers := mods }
        let refs : List Reference :=
          (if base ≠ "" then
            [{ fromFile := fp, fromSymbol := name, toSymbol := base,
               refType := "inherits" }]
           else []) ++
          ifaces.map (fun i =>
            { fromFile := fp, fromSymbol := name, toSymbol := i,
              refType := "implements" })
        let members := extractMembers fp ns name ch
        let nested := extractTypesForest fp ns name ch
        (sym :: members ++ nested.1, refs ++ nested.2)
      else ([], [])
    | none =>
      if t = "namespace_declaration" || t = "file_scoped_namespace_declaration" ||
         t = "declaration_list" then
        extractTypesForest fp ns parentClass ch
      else ([], [])
end

/-- `CSharpParser._parse_with_tree_sitter` on an already parsed tree. -/
def parseWithTreeSitterAst (root : TSNode) (fp : String) :
    List Symbol × List Reference :=
  let ns := extractNamespaceAst root.children
  extractTypesForest fp ns "" root.children

/-! ## Concrete syntax trees for the round-trip unit

The tree produced by the tree-sitter C# grammar for
`public class <N> : IBar \x7b public void Baz() \x7b\x7d \x7d`
(one line, so every row is 0). -/

/-- The `method_declaration` node of `public void Baz() \x7b\x7d`. -/
def bazMethodAst : TSNode :=
  .mk "method_declaration" "public void Baz() \x7b\x7d" 0 (forest
    [.mk "modifier" "public" 0 (forest []),
     .mk "predefined_type" "void" 0 (forest []),
     .mk "identifier" "Baz" 0 (forest []),
     .mk "parameter_list" "()" 0 (forest
       [.mk "(" "(" 0 (forest []), .mk ")" ")" 0 (forest [])]),
     .mk "block" "\x7b\x7d" 0 (forest
       [.mk "\x7b" "\x7b" 0 (forest []), .mk "\x7d" "\x7d" 0 (forest [])])])

/-- The `class_declaration` node for class name `nm`. -/
def classDeclAst (nm : String) : TSNode :=
  .mk "class_declaration"
    ("public class " ++ nm ++ " : IBar \x7b public void Baz() \x7b\x7d \x7d") 0 (forest
    [.mk "modifier" "public" 0 (forest []),
     .mk "class" "class" 0 (forest []),
     .mk "identifier" nm 0 (forest []),
     .mk "base_list" ": IBar" 0 (forest
       [.mk ":" ":" 0 (forest []),
        .mk "identifier" "IBar" 0 (forest [])]),
     .mk "declaration_list" "\x7b public void Baz() \x7b\x7d \x7d" 0 (forest
       [.mk "\x7b" "\x7b" 0 (forest []),
        bazMethodAst,
        .mk "\x7d" "\x7d" 0 (forest [])])])

/-- The `compilation_unit` root for class name `nm`. -/
def unitAst (nm : String) : TSNode :=
  .mk "compilation_unit"
    ("public class " ++ nm ++ " : IBar \x7b public void Baz() \x7b\x7d \x7d") 0
    (forest [classDeclAst nm])

/-! ## Fallback extraction (`CSharpParser._parse_with_regex`)

The fallback path scans raw text with
`(public|internal)\s*(abstract\s+|sealed\s+|static\s+|partial\s+)*class\s+(\w+)(?:\s*<[^>]+>)?(?:\s*:\s*([^\x7b]+))?\s*\x7b`
via `re.finditer`.  The pattern is hand-translated below; each component
is deterministic for this pattern (the only place Python's backtracking
matters is the whitespace before the captured base list, handled in
`matchOptBase`). -/

/-- Match a literal token; returns the rest of the input on success. -/
def dropLit : List Char → List Char → Option (List Char)
  | [], s => some s
  | _ :: _, [] => none
  | c :: cs, d :: ds => if c = d then dropLit cs ds else none

/-- Substring containment: Python `needle in haystack`. -/
def isInfixChars (p : List Char) : List Char → Bool
  | [] => p.isEmpty
  | c :: tail => p.isPrefixOf (c :: tail) || isInfixChars p tail

/-- The modifier alternatives of the class pattern, in regex order. -/
def modWords : List (List Char) :=
  ["abstract".data, "sealed".data, "static".data, "partial".data]

/-- One iteration of `(abstract\s+|sealed\s+|static\s+|partial\s+)`:
first alternative whose literal and at least one following whitespace
character match; returns (matched text, rest). -/
def tryModWords (s : List Char) : List (List Char) →
    Option (List Char × List Char)
  | [] => none
  | w :: ws =>
    match dropLit w s with
    | some r =>
      let sp := r.takeWhile pySpace
      if sp.isEmpty then tryModWords s ws else some (w ++ sp, r.drop sp.length)
    | none => tryModWords s ws

/-- Greedy star over the modifier alternatives; the capture keeps only the
last iteration's text (Python group semantics for a repeated group).
Fuel-structural; every iteration consumes at least one character. -/
def matchModsStar : Nat → List Char → Option (List Char) →
    List Char × Option (List Char)
  | 0, s, last => (s, last)
  | fuel + 1, s, last =>
    match tryModWords s modWords with
    | some (txt, rest) => matchModsStar fuel rest (some txt)
    | none => (s, last)

/-- Optional group `(?:\s*<[^>]+>)?`: consume it when it matches, else
leave the input untouched. -/
def matchOptGeneric (s : List Char) : List Char :=
  let r := s.drop ((s.takeWhile pySpace).length)
  match r with
  | '<' :: r2 =>
    let run := r2.takeWhile (fun d => !(d = '>'))
    if run.length ≥ 1 && ((r2.drop run.length).headD ' ') = '>' then
      r2.drop (run.length + 1)
    else s
  | _ => s

/-- Optional group `(?:\s*:\s*([^\x7b]+))?` followed (outside the group) by
`\s*\x7b`.  The captured run is the maximal run of non-`\x7b` characters
after the colon, minus the whitespace consumed by the greedy inner `\s*`;
when that run is all whitespace, backtracking leaves its last character to
the `[^\x7b]+` group. -/
def matchOptBase (s : List Char) : List Char × Option (List Char) :=
  let r := s.drop ((s.takeWhile pySpace).length)
  match r with
  | ':' :: r2 =>
    let run := r2.takeWhile (fun d => !(d = '\x7b'))
    if run.isEmpty then (s, none)
    else
      let p := (run.takeWhile pySpace).length
      let k := if p = run.length then p - 1 else p
      (r2.drop run.length, some (run.drop k))
  | _ => (s, none)

/-- Attempt the class-declaration pattern at the head of the input.
On success: (visibility, last modifier group text, class name,
optional inheritance capture, number of characters consumed). -/
def matchClassHead (s : List Char) :
    Option (String × String × String × Option (List Char) × Nat) :=
  let visR : Option (String × List Char) :=
    match dropLit "public".data s with
    | some r => some ("public", r)
    | none =>
      match dropLit "internal".data s with
      | some r => some ("internal", r)
      | none => none
  match visR with
  | none => none
  | some (vis, r1) =>
    let r2 := r1.drop ((r1.takeWhile pySpace).length)
    let (r3, lastMod) := matchModsStar r2.length r2 none
    match dropLit "class".data r3 with
    | none => none
    | some r4 =>
      let sp := r4.takeWhile pySpace
      if sp.isEmpty then none
      else
        let r5 := r4.drop sp.length
        let nm := r5.takeWhile isWordChar
        if nm.isEmpty then none
        else
          let r6 := r5.drop nm.length
          let r7 := matchOptGeneric r6
          let (r8, inh) := matchOptBase r7
          let r9 := r8.drop ((r8.takeWhile pySpace).length)
          match r9 with
          | '\x7b' :: r10 =>
            some (vis, (⟨lastMod.getD []⟩ : String), (⟨nm⟩ : String), inh,
              s.length - r10.length)
          | _ => none

/-- `re.finditer` over the class pattern: try every start position left to
right; after a match, resume after its end (matches cannot be empty).
Fuel-structural (`fuel = length + 1` is always sufficient because every
step consumes at least one character). -/
def classMatchesGo : Nat → List Char → Nat →
    List (Nat × String × String × String × Option (List Char))
  | 0, _, _ => []
  | _, [], _ => []
  | fuel + 1, c :: tail, i =>
    match matchClassHead (c :: tail) with
    | some (vis, mods, nm, inh, consumed) =>
      (i, vis, mods, nm, inh) ::
        classMatchesGo fuel ((c :: tail).drop consumed) (i + consumed)
    | none => classMatchesGo fuel tail (i + 1)

def classMatches (cs : List Char) :
    List (Nat × String × String × String × Option (List Char)) :=
  classMatchesGo (cs.length + 1) cs 0

/-- Attempt `namespace\s+([\w.]+)\s*[\x7b;]` at the head of the input. -/
def matchNsAt (s : List Char) : Option (List Char) :=
  match dropLit "namespace".data s with
  | none => none
  | some r =>
    let sp := r.takeWhile pySpace
    if sp.isEmpty then none
    else
      let r2 := r.drop sp.length
      let run := r2.takeWhile (fun d => isWordChar d || d = '.')
      if run.isEmpty then none
      else
        let r3 := r2.drop run.length
        let r4 := r3.drop ((r3.takeWhile pySpace).length)
        match r4 with
        | c :: _ => if c = '\x7b' || c = ';' then some run else none
        | [] => none

/-- `re.search` for the namespace pattern: first matching position. -/
def searchNamespaceGo : List Char → Option (List Char)
  | [] => none
  | c :: tail =>
    match matchNsAt (c :: tail) with
    | some g => some g
    | none => searchNamespaceGo tail

/-- `CSharpParser._parse_inheritance_string`: split on top-level commas
(tracking angle-bracket depth as a signed counter), strip each part and
normalize generic argument lists. -/
def parseInheritanceGo : List Char → Int → List Char → List String → List String
  | [], _, current, parts =>
    let part := pyStrip current
    if !part.isEmpty then parts ++ [subGenerics ⟨part⟩] else parts
  | ch :: rest, depth, current, parts =>
    if ch = '<' then parseInheritanceGo rest (depth + 1) (current ++ [ch]) parts
    else if ch = '>' then parseInheritanceGo rest (depth - 1) (current ++ [ch]) parts
    else if ch = ',' ∧ depth = 0 then
      let part := pyStrip current
      parseInheritanceGo rest depth []
        (if !part.isEmpty then parts ++ [subGenerics ⟨part⟩] else parts)
    else parseInheritanceGo rest depth (current ++ [ch]) parts

def parseInheritanceString (cs : List Char) : List String :=
  parseInheritanceGo cs 0 [] []

/-- `CSharpParser._parse_with_regex`. -/
def parseWithRegex (content fp : String) : List Symbol × List Reference :=
  let cs := content.data
  let ns : String := ⟨(searchNamespaceGo cs).getD []⟩
  let res := (classMatches cs).map (fun it =>
    let (start, vis, modsStr, className, inhOpt) := it
    let modifiers := [vis] ++
      (if isInfixChars "abstract".data modsStr.data then ["abstract"] else []) ++
      (if isInfixChars "static".data modsStr.data then ["static"] else []) ++
      (if isInfixChars "partial".data modsStr.data then ["partial"] else [])
    let (baseClass, ifaces) :=
      match inhOpt with
      | none => ("", ([] : List String))
      | some inh =>
        (parseInheritanceString inh).foldl
          (fun (acc : String × List String) part =>
            if isIfaceName part then (acc.1, acc.2 ++ [part])
            else if acc.1 = "" then (part, acc.2)
            else acc)
          ("", [])
    let line := ((cs.take start).filter (fun c => c = '\n')).length + 1
    let sig := buildTypeSignature className baseClass ifaces modifiers "class"
    let sym : Symbol :=
      { name := className, kind := "class", file := fp, line := line,
        signature := sig, ns := ns, parentClass := "",
        baseClass := baseClass, interfaces := ifaces, modifiers := modifiers }
    let refs : List Reference :=
      (if baseClass ≠ "" then
        [{ fromFile := fp, fromSymbol := className, toSymbol := baseClass,
           refType := "inherits" }]
       else []) ++
      ifaces.map (fun i =>
        { fromFile := fp, fromSymbol := className, toSymbol := i,
          refType := "implements" })
    (sym, refs))
  (res.map Prod.fst, (res.map (fun p => p.2)).flatten)

/-- Validation of the fallback matcher on a richer unit: namespace
detection, the last-iteration modifier group (`sealed` is lost because
only the last repetition of the modifier group is captured), base/interface
split and generic-argument normalization to `<T>`. -/
theorem parseWithRegex_validation : (parseWithRegex "namespace Game.Core \x7b public sealed abstract class PlayerData : BaseData<int, string>, IThing \x7b" "B.cs") =
    ([{ name := "PlayerData", kind := "class", file := "B.cs", line := 1,
        signature := "public abstract class PlayerData : BaseData<T>, IThing",
        ns := "Game.Core", parentClass := "", baseClass := "BaseData<T>",
        interfaces := ["IThing"], modifiers := ["public", "abstract"] }],
     [{ fromFile := "B.cs", fromSymbol := "PlayerData", toSymbol := "BaseData<T>",
        refType := "inherits" },
      { fromFile := "B.cs", fromSymbol := "PlayerData", toSymbol := "IThing",
        refType := "implements" }]) := by decide

/-! ## Ranker (`ranker.py`, `PageRankRanker`)

The networkx `DiGraph` is modelled by insertion-ordered node and edge
lists without duplicates; `graph = none` models the `HAS_NETWORKX = False`
configuration, in which `__init__` sets `self.graph = None`.  The
`symbol_info` dict is an insertion-ordered association list with Python
dict update semantics.  The fields `file_to_symbols` and `symbol_to_file`
only feed `get_file_ranks`/`get_module_ranks`, which no claim touches, and
are omitted.  The `ref_type` edge attribute is likewise unused by ranking
and not modelled. -/

structure Graph where
  nodes : List String
  edges : List (String × String)
deriving DecidableEq, Repr

/-- `DiGraph.add_node` (attributes aside): append if absent. -/
def addNodeG (g : Graph) (v : String) : Graph :=
  if v ∈ g.nodes then g else { g with nodes := g.nodes ++ [v] }

/-- `DiGraph.add_edge`: insert missing endpoints (source first), then the
edge if absent (a `DiGraph` keeps a single edge per ordered pair). -/
def addEdgeG (g : Graph) (u v : String) : Graph :=
  let g1 := addNodeG (addNodeG g u) v
  if (u, v) ∈ g1.edges then g1 else { g1 with edges := g1.edges ++ [(u, v)] }

/-- `DiGraph.in_degree`. -/
def inDegree (g : Graph) (v : String) : Nat :=
  (g.edges.filter (fun e => e.2 = v)).length

/-- `DiGraph.out_degree`. -/
def outDegree (g : Graph) (u : String) : Nat :=
  (g.edges.filter (fun e => e.1 = u)).length

/-- The per-symbol metadata stored in `symbol_info`. -/
structure SymbolInfo where
  file : String
  kind : String
  boost : ℚ
deriving DecidableEq, Repr

/-- Python dict assignment on an insertion-ordered association list:
update in place when the key exists, append otherwise. -/
def dictInsert : List (String × SymbolInfo) → String → SymbolInfo →
    List (String × SymbolInfo)
  | [], k, v => [(k, v)]
  | (k', v') :: rest, k, v =>
    if k' = k then (k, v) :: rest else (k', v') :: dictInsert rest k v

/-- `PageRankRanker` state: constructor parameters plus the graph and the
`symbol_info` dict. -/
structure RankerState where
  alpha : ℚ
  maxIter : Nat
  tol : ℚ
  graph : Option Graph
  symbolInfo : List (String × SymbolInfo)

/-- A fresh ranker with default parameters, when networkx is available. -/
def initRanker : RankerState :=
  { alpha := 17/20, maxIter := 100, tol := 1/1000000,
    graph := some { nodes := [], edges := [] }, symbolInfo := [] }

/-- A fresh ranker when networkx is absent (`HAS_NETWORKX = False`). -/
def initRankerNoNx : RankerState :=
  { alpha := 17/20, maxIter := 100, tol := 1/1000000,
    graph := none, symbolInfo := [] }

/-- `PageRankRanker.add_symbol`. -/
def addSymbol (name file kind : String) (boost : ℚ) (st : RankerState) :
    RankerState :=
  { st with
    symbolInfo := dictInsert st.symbolInfo name
      { file := file, kind := kind, boost := boost }
    graph := st.graph.map (fun g => addNodeG g name) }

/-- `PageRankRanker.add_reference`: a no-op when the graph is absent. -/
def addReference (fromS toS : String) (st : RankerState) : RankerState :=
  { st with graph := st.graph.map (fun g => addEdgeG g fromS toS) }

/-- `PageRankRanker._compute_simple_ranks`: in-degree counts over graph
nodes, normalized by the maximum (`1` when there are no counts), times
the symbol's boost; one entry per `symbol_info` key, in insertion order. -/
def computeSimpleRanks (st : RankerState) : List (String × ℚ) :=
  let refCounts : List (String × Nat) :=
    match st.graph with
    | none => []
    | some g => g.nodes.map (fun v => (v, inDegree g v))
  let maxRefs : Nat :=
    if refCounts.isEmpty then 1 else (refCounts.map Prod.snd).foldl max 0
  st.symbolInfo.map (fun p =>
    let base : ℚ :=
      if maxRefs > 0 then (((refCounts.lookup p.1).getD 0 : Nat) : ℚ) / (maxRefs : ℚ)
      else 0
    (p.1, base * p.2.boost))

/-- Modelled from the spec: the primary ranking backend (`nx.pagerank`) is
an external library, absent from the repository.  Following spec §4.2, one
damped power-iteration step: each node receives `(1-α)/n` plus `α` times
the rank inflow from its in-neighbours (each donor's rank split over its
out-degree) plus an equal share of the total rank of dangling nodes. -/
def prStep (g : Graph) (alpha : ℚ) (x : List (String × ℚ)) :
    List (String × ℚ) :=
  let n : ℚ := (g.nodes.length : ℚ)
  let dangling : ℚ :=
    ((g.nodes.filter (fun u => outDegree g u = 0)).map
      (fun u => (x.lookup u).getD 0)).sum
  g.nodes.map (fun v =>
    let inflow : ℚ :=
      ((g.edges.filter (fun e => e.2 = v)).map
        (fun e => ((x.lookup e.1).getD 0) / ((outDegree g e.1 : Nat) : ℚ))).sum
    (v, (1 - alpha) / n + alpha * (inflow + dangling / n)))

/-- L1 distance between two successive rank vectors (both are keyed by
`g.nodes` in the same order). -/
def l1Dist (x y : List (String × ℚ)) : ℚ :=
  ((x.zip y).map (fun p => |p.1.2 - p.2.2|)).sum

/-- Modelled from the spec: the backend's power iteration (spec §4.2):
start uniform, iterate until the L1 change falls below the tolerance,
fail (`none`, which the caller turns into the fallback ranking) when the
iteration cap is reached first.  Scores are returned for every graph node,
in node order. -/
def pagerankLoop (g : Graph) (alpha tol : ℚ) :
    Nat → List (String × ℚ) → Option (List (String × ℚ))
  | 0, _ => none
  | fuel + 1, x =>
    let x' := prStep g alpha x
    if l1Dist x x' < tol then some x' else pagerankLoop g alpha tol fuel x'

/-- Modelled from the spec: `nx.pagerank(graph, alpha, max_iter, tol)`. -/
def pagerankSpec (g : Graph) (alpha : ℚ) (maxIter : Nat) (tol : ℚ) :
    Option (List (String × ℚ)) :=
  pagerankLoop g alpha tol maxIter
    (g.nodes.map (fun v => (v, 1 / (g.nodes.length : ℚ))))

/-- `PageRankRanker.compute_ranks`: the fallback is taken when networkx is
absent (graph `none`), the graph is empty, or the backend fails; otherwise
each backend score is multiplied by the symbol's boost
(`symbol_info.get(symbol, \x7b\x7d).get('boost', 1.0)`). -/
def computeRanks (st : RankerState) : List (String × ℚ) :=
  match st.graph with
  | none => computeSimpleRanks st
  | some g =>
    if g.nodes.isEmpty then computeSimpleRanks st
    else
      match pagerankSpec g st.alpha st.maxIter st.tol with
      | none => computeSimpleRanks st
      | some pr =>
        pr.map (fun p =>
          (p.1, p.2 * (((st.symbolInfo.lookup p.1).map SymbolInfo.boost).getD 1)))

/-- A ranked entry `(symbol_name, rank, info)`; `none` stands for the
empty info dict `symbol_info.get(name, \x7b\x7d)`. -/
abbrev RankedEntry := String × ℚ × Option SymbolInfo

/-- Stable descending insertion by score: the new element goes after every
earlier element with a strictly greater score and before the first element
whose score is not greater (Python `list.sort(key=..., reverse=True)` is
stable). -/
def insertRanked (e : RankedEntry) : List RankedEntry → List RankedEntry
  | [] => [e]
  | f :: fs => if e.2.1 < f.2.1 then f :: insertRanked e fs else e :: f :: fs

def sortRanked : List RankedEntry → List RankedEntry
  | [] => []
  | e :: es => insertRanked e (sortRanked es)

/-- `PageRankRanker.get_ranked_symbols`: build `(name, rank, info)` in the
order of `compute_ranks`, sort by rank descending (stable), then truncate
when `limit` is truthy (`if limit:` — `None` and `0` both skip). -/
def getRankedSymbols (st : RankerState) (limit : Option Nat) :
    List RankedEntry :=
  let ranks := computeRanks st
  let ranked := ranks.map (fun p => (p.1, p.2, st.symbolInfo.lookup p.1))
  let sorted := sortRanked ranked
  match limit with
  | none => sorted
  | some n => if n = 0 then sorted else sorted.take n

/-! ## Generator (`generator.py`, `RepoMapGenerator`)

Only the parts the claims touch: `_calculate_boost` and the three
over-budget trim loops of `generate_l1_skeleton` / `generate_l2_signatures`
/ `generate_l3_relations`.  The token counter (`count_tokens`) is an
external collaborator (tiktoken, with a `len(text) // 4` fallback) and is
a parameter; the trim loops are fuel-structural and each iteration removes
at least one line, so `fuel = length` is always sufficient. -/

/-- One boost pattern rule.  The Python dict keys `prefix`, `suffix`,
`contains` become the optional fields `pfx`, `sfx`, `inside`; a missing
`boost` key defaults to `1.0` (`pattern.get('boost', 1.0)`). -/
structure BoostRule where
  pfx : Option String
  sfx : Option String
  inside : Option String
  boostVal : Option ℚ
deriving DecidableEq, Repr

def ruleBoost (r : BoostRule) : ℚ :=
  r.boostVal.getD 1

/-- A prefix rule hit: `name.startswith(prefix) and len(name) > len(prefix)`
and then `name[len(prefix)].isupper()` (the two nested `if`s of the source,
merged into one conjunction). -/
def prefixRuleHit (name p : String) : Bool :=
  p.data.isPrefixOf name.data && decide (p.data.length < name.data.length) &&
  ((name.data.drop p.data.length).headD ' ').isUpper

/-- One iteration of the `_calculate_boost` pattern loop: the three key
checks in source order, each a `max` update of the accumulator. -/
def calcBoostStep (name : String) (b : ℚ) (r : BoostRule) : ℚ :=
  let b1 :=
    match r.pfx with
    | some p => if prefixRuleHit name p then max b (ruleBoost r) else b
    | none => b
  let b2 :=
    match r.sfx with
    | some x => if x.data.isSuffixOf name.data then max b1 (ruleBoost r) else b1
    | none => b1
  match r.inside with
  | some x => if isInfixChars x.data name.data then max b2 (ruleBoost r) else b2
  | none => b2

/-- `RepoMapGenerator._calculate_boost`. -/
def calcBoost (name : String) (rules : List BoostRule) : ℚ :=
  rules.foldl (calcBoostStep name) 1

/-- A rule matches a name when any of its present keys matches (prefix
hits require the uppercase continuation). -/
def ruleMatches (name : String) (r : BoostRule) : Bool :=
  (match r.pfx with
   | some p => prefixRuleHit name p
   | none => false) ||
  (match r.sfx with
   | some x => x.data.isSuffixOf name.data
   | none => false) ||
  (match r.inside with
   | some x => isInfixChars x.data name.data
   | none => false)

/-- `'\n'.join(lines)`. -/
def joinLines (lines : List String) : String :=
  String.intercalate "\n" lines

/-- `line.startswith('##')` — satisfied both by `##` module headers and by
`###` class headers. -/
def isHeaderLine (s : String) : Bool :=
  "##".data.isPrefixOf s.data

/-- `lines.pop(-2)`: remove the second-to-last line. -/
def popPenult (l : List String) : List String :=
  l.take (l.length - 2) ++ l.drop (l.length - 1)

/-- Tier-1 trim loop (`generate_l1_skeleton`): while over budget and more
than 10 lines remain, remove the second-to-last line. -/
def trimL1Go (count : String → Nat) (maxT : Nat) : Nat → List String → List String
  | 0, lines => lines
  | fuel + 1, lines =>
    if count (joinLines lines) > maxT ∧ lines.length > 10 then
      trimL1Go count maxT fuel (popPenult lines)
    else lines

def trimL1 (count : String → Nat) (maxT : Nat) (lines : List String) :
    List String :=
  trimL1Go count maxT lines.length lines

/-- The inner `while` of the tier-2 trim: pop trailing lines while the
last one does not start with `##`. -/
def dropTrailNonHeader (lines : List String) : List String :=
  (lines.reverse.dropWhile (fun s => !isHeaderLine s)).reverse

/-- One tier-2 trim iteration: drop the trailing non-header run, then the
header line itself (`if lines: lines.pop()`; dropping the last element of
an empty list is the identity, matching the skipped `pop`). -/
def sectionDrop (lines : List String) : List String :=
  (dropTrailNonHeader lines).dropLast

/-- Tier-2 trim loop (`generate_l2_signatures`): while over budget and
lines remain, drop the last section. -/
def trimL2Go (count : String → Nat) (maxT : Nat) : Nat → List String → List String
  | 0, lines => lines
  | fuel + 1, lines =>
    if count (joinLines lines) > maxT ∧ lines ≠ [] then
      trimL2Go count maxT fuel (sectionDrop lines)
    else lines

def trimL2 (count : String → Nat) (maxT : Nat) (lines : List String) :
    List String :=
  trimL2Go count maxT lines.length lines

/-- Tier-3 trim loop (`generate_l3_relations`): while over budget and more
than 5 lines remain, remove the last line. -/
def trimL3Go (count : String → Nat) (maxT : Nat) : Nat → List String → List String
  | 0, lines => lines
  | fuel + 1, lines =>
    if count (joinLines lines) > maxT ∧ lines.length > 5 then
      trimL3Go count maxT fuel lines.dropLast
    else lines

def trimL3 (count : String → Nat) (maxT : Nat) (lines : List String) :
    List String :=
  trimL3Go count maxT lines.length lines

/-- The `count_tokens` fallback estimate: `len(text) // 4`. -/
def approxTokens (s : String) : Nat :=
  s.length / 4

/-! ## Concrete ranker states used by the claims -/

/-- Two symbols `A`, `B` with equal negative boosts and one reference
`C -> A`. -/
def st5 : RankerState :=
  addReference "C" "A"
    (addSymbol "B" "b.cs" "class" (-1) (addSymbol "A" "a.cs" "class" (-1) initRanker))

def g5 : Graph :=
  { nodes := ["A", "B", "C"], edges := [("C", "A")] }

/-- A two-cycle `A <-> B` whose edges were recorded before the symbols:
the graph receives node `A` first, `symbol_info` receives `B` first. -/
def st6 : RankerState :=
  addSymbol "A" "a.cs" "class" 1
    (addSymbol "B" "b.cs" "class" 1
      (addReference "B" "A" (addReference "A" "B" initRanker)))

/-- Symbol `A` only, but a two-cycle `A <-> B` in the graph: `B` occurs
purely as a reference target. -/
def st10 : RankerState :=
  addReference "B" "A" (addReference "A" "B" (addSymbol "A" "a.cs" "class" 1 initRanker))

def g10 : Graph :=
  { nodes := ["A", "B"], edges := [("A", "B"), ("B", "A")] }

/-- A ranker without networkx, one symbol with a large boost and one
(ignored) recorded reference. -/
def st9 : RankerState :=
  addReference "X" "Y" (addSymbol "Y" "y.cs" "class" 5 initRankerNoNx)

/-- Association-list lookup on string keys, as a decidable if-then-else
(used to let `simp +decide` evaluate concrete lookups). -/
theorem lookup_cons_str {α : Type} (k k' : String) (v : α)
    (rest : List (String × α)) :
    List.lookup k ((k', v) :: rest) = if k = k' then some v else List.lookup k rest := by
  by_cases h : k = k'
  · simp [List.lookup, h]
  · have hb : (k == k') = false := by simp [h]
    simp [List.lookup, hb, h]

/-- If the first damped step leaves the vector unchanged (below tolerance),
the loop returns it immediately, for any nonzero iteration budget. -/
theorem pagerankLoop_first_step (g : Graph) (alpha tol : ℚ) (fuel : Nat)
    (x : List (String × ℚ)) (hfuel : fuel ≠ 0)
    (hconv : l1Dist x (prStep g alpha x) < tol) :
    pagerankLoop g alpha tol fuel x = some (prStep g alpha x) := by
  cases fuel with
  | zero => exact absurd rfl hfuel
  | succ n => simp [pagerankLoop, hconv]

/-- On the symmetric two-cycle the uniform vector is already stationary,
so the backend converges after one step to `(1/2, 1/2)`. -/
theorem pg10_eval : pagerankSpec g10 (17/20) 100 (1/1000000) =
    some [("A", 1/2), ("B", 1/2)] := by
  rw [pagerankSpec, pagerankLoop_first_step g10 (17/20) (1/1000000) 100 _ (by norm_num)]
  · norm_num +decide [prStep, g10, outDegree, l1Dist, lookup_cons_str]
  · norm_num +decide [prStep, g10, outDegree, l1Dist, lookup_cons_str]

theorem st6_fields : st6 =
    { alpha := 17/20, maxIter := 100, tol := 1/1000000, graph := some g10,
      symbolInfo := [("B", { file := "b.cs", kind := "class", boost := 1 }),
                     ("A", { file := "a.cs", kind := "class", boost := 1 })] } := by
  norm_num +decide [st6, addSymbol, addReference, dictInsert, initRanker,
    addNodeG, addEdgeG, g10]

theorem st10_fields : st10 =
    { alpha := 17/20, maxIter := 100, tol := 1/1000000, graph := some g10,
      symbolInfo := [("A", { file := "a.cs", kind := "class", boost := 1 })] } := by
  norm_num +decide [st10, addSymbol, addReference, dictInsert, initRanker,
    addNodeG, addEdgeG, g10]

/-! ## Shape of the backend result and of `compute_ranks` -/

theorem prStep_keys (g : Graph) (alpha : ℚ) (x : List (String × ℚ)) :
    (prStep g alpha x).map Prod.fst = g.nodes := by
  unfold prStep
  rw [List.map_map]
  exact (List.map_congr_left (fun a _ => rfl)).trans (List.map_id _)

theorem pagerankLoop_keys (g : Graph) (alpha tol : ℚ) :
    ∀ (fuel : Nat) (x : List (String × ℚ)) (pr : List (String × ℚ)),
      pagerankLoop g alpha tol fuel x = some pr → pr.map Prod.fst = g.nodes := by
  intro fuel
  induction fuel with
  | zero => intro x pr h; cases h
  | succ n ih =>
    intro x pr h
    rw [pagerankLoop] at h
    split at h
    · cases h
      exact prStep_keys g alpha x
    · exact ih (prStep g alpha x) pr h

/-- The modelled backend scores every graph node (spec §4.2: "produce
name -> score for every node"), in node order. -/
theorem pagerankSpec_keys (g : Graph) (alpha : ℚ) (maxIter : Nat) (tol : ℚ)
    (pr : List (String × ℚ)) (h : pagerankSpec g alpha maxIter tol = some pr) :
    pr.map Prod.fst = g.nodes :=
  pagerankLoop_keys g alpha tol maxIter _ pr h

theorem lookup_none_ne (n : String) :
    ∀ (l : List (String × SymbolInfo)), l.lookup n = none →
      ∀ p ∈ l, p.1 ≠ n := by
  intro l
  induction l with
  | nil => intro _ p hp; simp at hp
  | cons kv rest ih =>
    intro h p hp
    rcases kv with ⟨k, v⟩
    rw [lookup_cons_str] at h
    by_cases hk : n = k
    · rw [if_pos hk] at h
      cases h
    · rw [if_neg hk] at h
      rcases List.mem_cons.mp hp with rfl | hmem
      · exact fun hkn => hk hkn.symm
      · exact ih h p hmem

theorem computeRanks_noNx (st : RankerState) (h : st.graph = none) :
    computeRanks st = computeSimpleRanks st := by
  unfold computeRanks
  rw [h]

theorem computeRanks_emptyGraph (st : RankerState) (g : Graph)
    (hg : st.graph = some g) (he : g.nodes.isEmpty = true) :
    computeRanks st = computeSimpleRanks st := by
  unfold computeRanks
  rw [hg]
  simp [he]

theorem computeRanks_backendFail (st : RankerState) (g : Graph)
    (hg : st.graph = some g)
    (hpr : pagerankSpec g st.alpha st.maxIter st.tol = none) :
    computeRanks st = computeSimpleRanks st := by
  unfold computeRanks
  rw [hg]
  dsimp only
  split
  · rfl
  · rw [hpr]

theorem computeRanks_primary (st : RankerState) (g : Graph)
    (pr : List (String × ℚ)) (hg : st.graph = some g)
    (hne : g.nodes.isEmpty = false)
    (hpr : pagerankSpec g st.alpha st.maxIter st.tol = some pr) :
    computeRanks st = pr.map (fun p =>
      (p.1, p.2 * (((st.symbolInfo.lookup p.1).map SymbolInfo.boost).getD 1))) := by
  unfold computeRanks
  rw [hg]
  dsimp only
  rw [if_neg (by simp [hne])]
  rw [hpr]

/-- Without networkx every rank is exactly zero, whatever was recorded. -/
theorem computeRanks_noNx_zero (st : RankerState) (h : st.graph = none) :
    computeRanks st = st.symbolInfo.map (fun p => (p.1, (0 : ℚ))) := by
  rw [computeRanks_noNx st h]
  unfold computeSimpleRanks
  rw [h]
  refine List.map_congr_left (fun p _ => ?_)
  simp

/-! ## Properties of the stable descending sort -/

theorem insertRanked_perm (e : RankedEntry) (l : List RankedEntry) :
    (insertRanked e l).Perm (e :: l) := by
  induction l with
  | nil => simp [insertRanked]
  | cons f fs ih =>
    by_cases h : e.2.1 < f.2.1
    · simp only [insertRanked, if_pos h]
      exact (ih.cons f).trans (List.Perm.swap e f fs)
    · simp [insertRanked, if_neg h]

theorem sortRanked_perm (l : List RankedEntry) : (sortRanked l).Perm l := by
  induction l with
  | nil => simp [sortRanked]
  | cons e es ih =>
    exact (insertRanked_perm e (sortRanked es)).trans (ih.cons e)

/-- Descending order on scores, as a pairwise relation. -/
def scoreGE (a b : RankedEntry) : Prop := b.2.1 ≤ a.2.1

theorem insertRanked_sorted (e : RankedEntry) (l : List RankedEntry)
    (h : l.Pairwise scoreGE) : (insertRanked e l).Pairwise scoreGE := by
  induction l with
  | nil => exact List.pairwise_singleton _ _
  | cons f fs ih =>
    rcases List.pairwise_cons.mp h with ⟨hf, hfs⟩
    by_cases hc : e.2.1 < f.2.1
    · simp only [insertRanked, if_pos hc]
      refine List.pairwise_cons.mpr ⟨?_, ih hfs⟩
      intro x hx
      have hx' := (insertRanked_perm e fs).mem_iff.mp hx
      rcases List.mem_cons.mp hx' with rfl | hmem
      · exact le_of_lt hc
      · exact hf x hmem
    · simp only [insertRanked, if_neg hc]
      refine List.pairwise_cons.mpr ⟨?_, List.pairwise_cons.mpr ⟨hf, hfs⟩⟩
      intro x hx
      rcases List.mem_cons.mp hx with rfl | hmem
      · exact le_of_not_lt hc
      · exact le_trans (hf x hmem) (le_of_not_lt hc)

theorem sortRanked_sorted (l : List RankedEntry) :
    (sortRanked l).Pairwise scoreGE := by
  induction l with
  | nil => exact List.Pairwise.nil
  | cons e es ih => exact insertRanked_sorted e (sortRanked es) ih

theorem insertRanked_filter_hit (e : RankedEntry) (l : List RankedEntry)
    (q : ℚ) (he : e.2.1 = q) :
    (insertRanked e l).filter (fun f => decide (f.2.1 = q)) =
      e :: l.filter (fun f => decide (f.2.1 = q)) := by
  induction l with
  | nil => simp [insertRanked, List.filter, he]
  | cons f fs ih =>
    by_cases hc : e.2.1 < f.2.1
    · have hfq : ¬(f.2.1 = q) := by
        intro hq
        rw [← he] at hq
        exact absurd hq (ne_of_gt hc)
      simp only [insertRanked, if_pos hc, List.filter_cons]
      simp [hfq, ih]
    · simp only [insertRanked, if_neg hc, List.filter_cons]
      simp [he]

theorem insertRanked_filter_miss (e : RankedEntry) (l : List RankedEntry)
    (q : ℚ) (he : ¬(e.2.1 = q)) :
    (insertRanked e l).filter (fun f => decide (f.2.1 = q)) =
      l.filter (fun f => decide (f.2.1 = q)) := by
  induction l with
  | nil => simp [insertRanked, List.filter, he]
  | cons f fs ih =>
    by_cases hc : e.2.1 < f.2.1
    · simp only [insertRanked, if_pos hc, List.filter_cons]
      rw [ih]
    · simp only [insertRanked, if_neg hc, List.filter_cons]
      simp [he]

/-- The stable sort never re-orders entries with equal scores: for any
score, the subsequence holding that score is untouched. -/
theorem sortRanked_filter_stable (l : List RankedEntry) (q : ℚ) :
    (sortRanked l).filter (fun f => decide (f.2.1 = q)) =
      l.filter (fun f => decide (f.2.1 = q)) := by
  induction l with
  | nil => simp [sortRanked]
  | cons e es ih =>
    by_cases he : e.2.1 = q
    · rw [sortRanked, insertRanked_filter_hit e (sortRanked es) q he, ih]
      simp [List.filter_cons, he]
    · rw [sortRanked, insertRanked_filter_miss e (sortRanked es) q he, ih]
      simp [List.filter_cons, he]

/-- A sort input whose scores are all equal comes back unchanged. -/
theorem sortRanked_const_score (l : List RankedEntry) (q : ℚ)
    (h : ∀ e ∈ l, e.2.1 = q) : sortRanked l = l := by
  have hfl : l.filter (fun f => decide (f.2.1 = q)) = l :=
    List.filter_eq_self.mpr (fun e he => by simp [h e he])
  have hfs : (sortRanked l).filter (fun f => decide (f.2.1 = q)) = sortRanked l := by
    refine List.filter_eq_self.mpr (fun e he => ?_)
    have := h e ((sortRanked_perm l).mem_iff.mp he)
    simp [this]
  have := sortRanked_filter_stable l q
  rw [hfs, hfl] at this
  exact this

/-! ## Name validity of primary-path type symbols -/

/-- Invariant of the `_extract_type_info` child loop: the name accumulator
is empty or has passed `_is_valid_type_name`, because it is only ever set
to a validated candidate. -/
theorem extractTypeInfoGo_valid :
    ∀ (f : TSForest) (nm base : String) (ifc mods : List String),
      (nm = "" ∨ isValidTypeName nm = true) →
      ((extractTypeInfoGo f nm base ifc mods).1 = "" ∨
        isValidTypeName (extractTypeInfoGo f nm base ifc mods).1 = true)
  | .nil, nm, base, ifc, mods, h => by simpa [extractTypeInfoGo] using h
  | .cons child rest, nm, base, ifc, mods, h => by
    rw [extractTypeInfoGo]
    split
    · split
      · rename_i hval
        refine extractTypeInfoGo_valid rest _ _ _ _ (Or.inr ?_)
        exact (Bool.and_eq_true_iff.mp hval).2
      · exact extractTypeInfoGo_valid rest _ _ _ _ h
    · split
      · split
        · exact extractTypeInfoGo_valid rest _ _ _ _ h
        · exact extractTypeInfoGo_valid rest _ _ _ _ h
      · split
        · exact extractTypeInfoGo_valid rest _ _ _ _ h
        · exact extractTypeInfoGo_valid rest _ _ _ _ h

/-- `_extract_method` only emits `method` symbols. -/
theorem extractMethod_kind (fp ns cn : String) (node : TSNode) (s : Symbol)
    (h : extractMethod fp ns cn node = some s) : s.kind = "method" := by
  rw [extractMethod] at h
  rcases hE : extractMethodGo node.children "" "" [] [] with ⟨nm, ret, mods, params⟩
  rw [hE] at h
  dsimp only at h
  by_cases hc : (decide (nm ≠ "") && decide ("public" ∈ mods)) = true
  · rw [if_pos hc] at h
    cases h
    rfl
  · rw [if_neg hc] at h
    cases h

/-- `_extract_property` only emits `property` symbols. -/
theorem extractProperty_kind (fp ns cn : String) (node : TSNode) (s : Symbol)
    (h : extractProperty fp ns cn node = some s) : s.kind = "property" := by
  rw [extractProperty] at h
  rcases hE : extractPropertyGo node.children "" "" [] with ⟨nm, ty, mods⟩
  rw [hE] at h
  dsimp only at h
  by_cases hc : (decide (nm ≠ "") && decide ("public" ∈ mods)) = true
  · rw [if_pos hc] at h
    cases h
    rfl
  · rw [if_neg hc] at h
    cases h

theorem extractMembersInner_kind (fp ns cn : String) :
    ∀ (f : TSForest) (s : Symbol), s ∈ extractMembersInner fp ns cn f →
      s.kind = "method" ∨ s.kind = "property"
  | .nil, s, hs => by simp [extractMembersInner] at hs
  | .cons m rest, s, hs => by
    rw [extractMembersInner] at hs
    rcases List.mem_append.mp hs with hm | hm
    · split at hm
      · rcases Option.mem_toList.mp hm with h
        exact Or.inl (extractMethod_kind fp ns cn m s h)
      · split at hm
        · rcases Option.mem_toList.mp hm with h
          exact Or.inr (extractProperty_kind fp ns cn m s h)
        · simp at hm
    · exact extractMembersInner_kind fp ns cn rest s hm

theorem extractMembers_kind (fp ns cn : String) :
    ∀ (f : TSForest) (s : Symbol), s ∈ extractMembers fp ns cn f →
      s.kind = "method" ∨ s.kind = "property"
  | .nil, s, hs => by simp [extractMembers] at hs
  | .cons child rest, s, hs => by
    rw [extractMembers] at hs
    rcases List.mem_append.mp hs with hm | hm
    · split at hm
      · exact extractMembersInner_kind fp ns cn child.children s hm
      · simp at hm
    · exact extractMembers_kind fp ns cn rest s hm

mutual
/-- Every symbol emitted by the `_extract_types` walk either carries a
name that passed `_is_valid_type_name` or is a member symbol. -/
theorem extractTypesForest_names :
    ∀ (fp ns pc : String) (f : TSForest) (s : Symbol),
      s ∈ (extractTypesForest fp ns pc f).1 →
      isValidTypeName s.name = true ∨ s.kind = "method" ∨ s.kind = "property"
  | fp, ns, pc, .nil, s, hs => by simp [extractTypesForest] at hs
  | fp, ns, pc, .cons child rest, s, hs => by
    rw [extractTypesForest] at hs
    rcases List.mem_append.mp hs with hm | hm
    · exact extractTypesNode_names fp ns pc child s hm
    · exact extractTypesForest_names fp ns pc rest s hm

theorem extractTypesNode_names :
    ∀ (fp ns pc : String) (n : TSNode) (s : Symbol),
      s ∈ (extractTypesNode fp ns pc n).1 →
      isValidTypeName s.name = true ∨ s.kind = "method" ∨ s.kind = "property"
  | fp, ns, pc, .mk t x r ch, s, hs => by
    rw [extractTypesNode] at hs
    rcases hk : typeKindOf t with _ | kind
    · rw [hk] at hs
      dsimp only at hs
      split at hs
      · exact extractTypesForest_names fp ns pc ch s hs
      · simp at hs
    · rw [hk] at hs
      rcases hti : extractTypeInfo (.mk t x r ch) with ⟨nm, bs, ifc, mods⟩
      rw [hti] at hs
      dsimp only at hs
      split at hs
      · rename_i hne
        rcases List.mem_cons.mp hs with rfl | hm
        · left
          have := extractTypeInfoGo_valid (TSNode.mk t x r ch).children "" "" [] []
            (Or.inl rfl)
          have hnm : (extractTypeInfo (TSNode.mk t x r ch)).1 = "" ∨
              isValidTypeName (extractTypeInfo (TSNode.mk t x r ch)).1 = true := by
            simpa [extractTypeInfo] using this
          rw [hti] at hnm
          rcases hnm with hnm | hnm
          · exact absurd hnm hne
          · exact hnm
        · rcases List.mem_append.mp hm with hmm | hmm
          · exact Or.inr (extractMembers_kind fp ns nm ch s hmm)
          · exact extractTypesForest_names fp ns nm ch s hmm
      · simp at hs
end

/-! ## The fallback-rank formula (for §4.2 of the spec) -/

/-- `ref_counts.get(symbol, 0)`: the in-degree for graph nodes, `0` for
names absent from the graph. -/
def refCount (g : Graph) (s : String) : Nat :=
  if s ∈ g.nodes then inDegree g s else 0

/-- `max(in_degree over all graph nodes)` (0 for an empty graph). -/
def maxInDeg (g : Graph) : Nat :=
  (g.nodes.map (inDegree g)).foldl max 0

theorem foldl_max_init (l : List Nat) : ∀ a : Nat, a ≤ l.foldl max a := by
  induction l with
  | nil => intro a; simp
  | cons b bs ih =>
    intro a
    exact le_trans (le_max_left a b) (by simpa using ih (max a b))

theorem mem_le_foldl_max (l : List Nat) : ∀ x ∈ l, ∀ a : Nat, x ≤ l.foldl max a := by
  induction l with
  | nil => intro x hx; simp at hx
  | cons b bs ih =>
    intro x hx a
    rcases List.mem_cons.mp hx with rfl | hmem
    · exact le_trans (le_max_right a x) (by simpa using foldl_max_init bs (max a x))
    · simpa using ih x hmem (max a b)

theorem mem_le_maxInDeg (g : Graph) (s : String) (h : s ∈ g.nodes) :
    inDegree g s ≤ maxInDeg g :=
  mem_le_foldl_max _ (inDegree g s) (List.mem_map_of_mem (inDegree g) h) 0

theorem refCount_le_maxInDeg (g : Graph) (s : String) :
    refCount g s ≤ maxInDeg g := by
  by_cases h : s ∈ g.nodes
  · simpa [refCount, h] using mem_le_maxInDeg g s h
  · simp [refCount, h]

theorem lookup_inDegree_map (g : Graph) :
    ∀ (nodes : List String) (s : String),
      (((nodes.map (fun v => (v, inDegree g v))).lookup s).getD 0) =
        if s ∈ nodes then inDegree g s else 0 := by
  intro nodes
  induction nodes with
  | nil => intro s; simp
  | cons v vs ih =>
    intro s
    rw [List.map_cons, lookup_cons_str]
    by_cases h : s = v
    · subst h
      simp
    · simp only [if_neg h, ih s]
      by_cases hm : s ∈ vs <;> simp [hm, h]

/-- `_compute_simple_ranks`, closed form: one entry per `symbol_info` key
(in insertion order), valued `in_degree / max_in_degree × boost`, where a
name outside the graph counts in-degree `0` and the division is the total
(`x/0 = 0`) rational division. -/
theorem computeSimpleRanks_formula (st : RankerState) (g : Graph)
    (hg : st.graph = some g) :
    computeSimpleRanks st = st.symbolInfo.map (fun p =>
      (p.1, (refCount g p.1 : ℚ) / (maxInDeg g : ℚ) * p.2.boost)) := by
  unfold computeSimpleRanks
  rw [hg]
  refine List.map_congr_left (fun p _ => ?_)
  rcases hnodes : g.nodes with _ | ⟨v, vs⟩
  · have hrc : refCount g p.1 = 0 := by simp [refCount, hnodes]
    have hmd : maxInDeg g = 0 := by simp [maxInDeg, hnodes]
    simp [hnodes, hrc, hmd]
  · have hne : ¬((g.nodes.map (fun v => (v, inDegree g v))).isEmpty = true) := by
      simp [hnodes]
    rw [if_neg hne]
    have hmaps : ((g.nodes.map (fun v => (v, inDegree g v))).map Prod.snd).foldl max 0 =
        maxInDeg g := by
      simp [maxInDeg, List.map_map]
      rfl
    rw [hmaps]
    have hlk := lookup_inDegree_map g g.nodes p.1
    by_cases hpos : maxInDeg g > 0
    · rw [if_pos hpos, hlk]
      have : (if p.1 ∈ g.nodes then inDegree g p.1 else 0) = refCount g p.1 := by
        simp [refCount]
      rw [this]
    · have hz : maxInDeg g = 0 := by omega
      rw [if_neg hpos]
      have : refCount g p.1 = 0 := by
        have := refCount_le_maxInDeg g p.1
        omega
      simp [this, hz]

/-! ## The boost characterization (for `_calculate_boost`) -/

theorem max_max_self (b v : ℚ) : max (max b v) v = max b v := by
  rw [max_assoc, max_self]

set_option maxHeartbeats 1000000 in
/-- One pattern rule updates the accumulator to the max with its boost
exactly when the rule matches. -/
theorem calcBoostStep_eq (name : String) (b : ℚ) (r : BoostRule) :
    calcBoostStep name b r =
      if ruleMatches name r then max b (ruleBoost r) else b := by
  rcases r with ⟨pfx, sfx, inside, bv⟩
  rcases pfx with _ | p <;> rcases sfx with _ | x <;> rcases inside with _ | y <;>
    simp only [calcBoostStep, ruleMatches, Bool.or_false, Bool.false_or] <;>
    repeat' split <;>
    try first
      | rfl
      | simp_all [max_max_self, max_assoc, max_self]

theorem foldl_calcBoostStep (name : String) :
    ∀ (rules : List BoostRule) (b : ℚ),
      rules.foldl (calcBoostStep name) b =
        (rules.filter (ruleMatches name)).foldl
          (fun a r => max a (ruleBoost r)) b := by
  intro rules
  induction rules with
  | nil => intro b; simp
  | cons r rs ih =>
    intro b
    rw [List.foldl_cons, calcBoostStep_eq, List.filter_cons]
    by_cases h : ruleMatches name r = true
    · rw [if_pos h, if_pos h, List.foldl_cons]
      exact ih (max b (ruleBoost r))
    · rw [if_neg h, if_neg h]
      exact ih b

theorem foldl_max_boost_init (l : List BoostRule) :
    ∀ b : ℚ, b ≤ l.foldl (fun a r => max a (ruleBoost r)) b := by
  induction l with
  | nil => intro b; simp
  | cons r rs ih =>
    intro b
    exact le_trans (le_max_left b (ruleBoost r)) (ih (max b (ruleBoost r)))

/-! ## Properties of the trim loops -/

theorem popPenult_length (l : List String) (h : 2 ≤ l.length) :
    (popPenult l).length = l.length - 1 := by
  simp [popPenult]
  omega

theorem dropTrailNonHeader_len_le (l : List String) :
    (dropTrailNonHeader l).length ≤ l.length := by
  have := dropWhile_len_le (fun s => !isHeaderLine s) l.reverse
  simpa [dropTrailNonHeader] using this

theorem sectionDrop_length_lt (l : List String) (h : l ≠ []) :
    (sectionDrop l).length < l.length := by
  have hl : 1 ≤ l.length := List.length_pos.mpr h
  have hle := dropTrailNonHeader_len_le l
  rcases heq : dropTrailNonHeader l with _ | ⟨a, rest⟩
  · simp [sectionDrop, heq]
    omega
  · have : (sectionDrop l).length = (a :: rest).length - 1 := by
      simp [sectionDrop, heq]
    rw [heq] at hle
    omega

theorem trimL1Go_spec (count : String → Nat) (maxT : Nat) :
    ∀ fuel lines, lines.length ≤ fuel →
      count (joinLines (trimL1Go count maxT fuel lines)) ≤ maxT ∨
        (trimL1Go count maxT fuel lines).length ≤ 10 := by
  intro fuel
  induction fuel with
  | zero =>
    intro lines hlen
    right
    simpa [trimL1Go] using Nat.le_trans hlen (by omega)
  | succ n ih =>
    intro lines hlen
    by_cases hc : count (joinLines lines) > maxT ∧ lines.length > 10
    · rw [trimL1Go, if_pos hc]
      refine ih (popPenult lines) ?_
      have := popPenult_length lines (by omega)
      omega
    · rw [trimL1Go, if_neg hc]
      push_neg at hc
      by_cases h1 : count (joinLines lines) ≤ maxT
      · exact Or.inl h1
      · right
        have := hc (by omega)
        omega

theorem trimL2Go_nil (count : String → Nat) (maxT : Nat) (fuel : Nat) :
    trimL2Go count maxT fuel [] = [] := by
  cases fuel with
  | zero => rfl
  | succ n => simp [trimL2Go]

theorem trimL2Go_spec (count : String → Nat) (maxT : Nat) :
    ∀ fuel lines, lines.length ≤ fuel →
      trimL2Go count maxT fuel lines = [] ∨
        count (joinLines (trimL2Go count maxT fuel lines)) ≤ maxT := by
  intro fuel
  induction fuel with
  | zero =>
    intro lines hlen
    have : lines = [] := List.length_eq_zero.mp (by omega)
    subst this
    exact Or.inl (trimL2Go_nil count maxT 0)
  | succ n ih =>
    intro lines hlen
    by_cases hc : count (joinLines lines) > maxT ∧ lines ≠ []
    · rw [trimL2Go, if_pos hc]
      refine ih (sectionDrop lines) ?_
      have := sectionDrop_length_lt lines hc.2
      omega
    · rw [trimL2Go, if_neg hc]
      push_neg at hc
      by_cases h1 : count (joinLines lines) ≤ maxT
      · exact Or.inr h1
      · exact Or.inl (hc (by omega))

theorem trimL2Go_congr (count : String → Nat) (maxT : Nat) :
    ∀ f1 f2 lines, lines.length ≤ f1 → lines.length ≤ f2 →
      trimL2Go count maxT f1 lines = trimL2Go count maxT f2 lines := by
  intro f1
  induction f1 with
  | zero =>
    intro f2 lines h1 h2
    have : lines = [] := List.length_eq_zero.mp (by omega)
    subst this
    rw [trimL2Go_nil, trimL2Go_nil]
  | succ n ih =>
    intro f2 lines h1 h2
    cases f2 with
    | zero =>
      have : lines = [] := List.length_eq_zero.mp (by omega)
      subst this
      rw [trimL2Go_nil, trimL2Go_nil]
    | succ m =>
      by_cases hc : count (joinLines lines) > maxT ∧ lines ≠ []
      · rw [trimL2Go, if_pos hc, trimL2Go, if_pos hc]
        have hlt := sectionDrop_length_lt lines hc.2
        exact ih m (sectionDrop lines) (by omega) (by omega)
      · rw [trimL2Go, if_neg hc, trimL2Go, if_neg hc]

theorem trimL3Go_spec (count : String → Nat) (maxT : Nat) :
    ∀ fuel lines, lines.length ≤ fuel →
      count (joinLines (trimL3Go count maxT fuel lines)) ≤ maxT ∨
        (trimL3Go count maxT fuel lines).length ≤ 5 := by
  intro fuel
  induction fuel with
  | zero =>
    intro lines hlen
    right
    simpa [trimL3Go] using Nat.le_trans hlen (by omega)
  | succ n ih =>
    intro lines hlen
    by_cases hc : count (joinLines lines) > maxT ∧ lines.length > 5
    · rw [trimL3Go, if_pos hc]
      refine ih lines.dropLast ?_
      have : lines.dropLast.length = lines.length - 1 := List.length_dropLast lines
      omega
    · rw [trimL3Go, if_neg hc]
      push_neg at hc
      by_cases h1 : count (joinLines lines) ≤ maxT
      · exact Or.inl h1
      · right
        have := hc (by omega)
        omega

theorem dropWhile_head_false {α : Type} (p : α → Bool) :
    ∀ (l : List α) (c : α) (rest : List α), l.dropWhile p = c :: rest →
      p c = false := by
  intro l
  induction l with
  | nil => intro c rest h; simp [List.dropWhile] at h
  | cons a as ih =>
    intro c rest h
    by_cases hp : p a
    · rw [List.dropWhile_cons_of_pos hp] at h
      exact ih c rest h
    · rw [List.dropWhile_cons_of_neg hp] at h
      cases h
      simpa using hp

theorem mem_takeWhile_true {α : Type} (p : α → Bool) :
    ∀ (l : List α) (a : α), a ∈ l.takeWhile p → p a = true := by
  intro l
  induction l with
  | nil => intro a h; simp [List.takeWhile] at h
  | cons b bs ih =>
    intro a h
    by_cases hp : p b
    · rw [List.takeWhile_cons_of_pos hp] at h
      rcases List.mem_cons.mp h with rfl | hmem
      · exact hp
      · exact ih a hmem
    · rw [List.takeWhile_cons_of_neg hp] at h
      simp at h

/-- What the inner while loop of the tier-2 trim removes: a (possibly
empty) trailing run of lines that do not start with `##`. -/
theorem dropTrailNonHeader_decomp (l : List String) :
    ∃ suf, l = dropTrailNonHeader l ++ suf ∧
      ∀ s ∈ suf, isHeaderLine s = false := by
  refine ⟨(l.reverse.takeWhile (fun s => !isHeaderLine s)).reverse, ?_, ?_⟩
  · have hsplit := List.takeWhile_append_dropWhile
      (p := fun s => !isHeaderLine s) (l := l.reverse)
    calc l = l.reverse.reverse := (List.reverse_reverse l).symm
    _ = (l.reverse.takeWhile (fun s => !isHeaderLine s) ++
          l.reverse.dropWhile (fun s => !isHeaderLine s)).reverse := by rw [hsplit]
    _ = dropTrailNonHeader l ++
          (l.reverse.takeWhile (fun s => !isHeaderLine s)).reverse := by
        rw [List.reverse_append]
        rfl
  · intro s hs
    have := mem_takeWhile_true (fun s => !isHeaderLine s) l.reverse s
      (List.mem_reverse.mp hs)
    simpa using this

/-- The line removed by the `pop` after the inner while loop is a section
header (a line starting with `##`), when any line is removed at all. -/
theorem dropTrailNonHeader_last (l : List String) :
    dropTrailNonHeader l = [] ∨
      ∃ pre h, dropTrailNonHeader l = pre ++ [h] ∧ isHeaderLine h = true ∧
        sectionDrop l = pre := by
  rcases heq : l.reverse.dropWhile (fun s => !isHeaderLine s) with _ | ⟨c, rest⟩
  · left
    simp [dropTrailNonHeader, heq]
  · right
    have hc : isHeaderLine c = true := by
      have := dropWhile_head_false (fun s => !isHeaderLine s) l.reverse c rest heq
      simpa using this
    refine ⟨rest.reverse, c, ?_, hc, ?_⟩
    · simp [dropTrailNonHeader, heq]
    · simp [sectionDrop, dropTrailNonHeader, heq]

/-! ## Concrete rank evaluations -/

theorem computeRanks_st6 : computeRanks st6 = [("A", 1/2), ("B", 1/2)] := by
  rw [computeRanks_primary st6 g10 [("A", 1/2), ("B", 1/2)]
    (by rw [st6_fields]) (by decide)
    (by rw [st6_fields]; exact pg10_eval)]
  norm_num +decide [st6_fields, lookup_cons_str]

theorem getRanked_st6 : getRankedSymbols st6 none =
    [("A", 1/2, some { file := "a.cs", kind := "class", boost := 1 }),
     ("B", 1/2, some { file := "b.cs", kind := "class", boost := 1 })] := by
  unfold getRankedSymbols
  rw [computeRanks_st6]
  norm_num +decide [st6_fields, lookup_cons_str, sortRanked, insertRanked]

theorem computeRanks_st10 : computeRanks st10 = [("A", 1/2), ("B", 1/2)] := by
  rw [computeRanks_primary st10 g10 [("A", 1/2), ("B", 1/2)]
    (by rw [st10_fields]) (by decide)
    (by rw [st10_fields]; exact pg10_eval)]
  norm_num +decide [st10_fields, lookup_cons_str]

/-! ## The claims -/

/-- C1 (counterexample): the claim says the minimal unit
`public class Foo : IBar \x7b public void Baz() \x7b\x7d \x7d` yields exactly one type
symbol `Foo`, one implements-reference and one method symbol.  On the
primary extraction path it yields nothing at all: `Foo` has only 3
characters and is not fully uppercase, so `_is_valid_type_name` rejects it
(minimum-length rule), the declaration is skipped, and neither the
reference nor the method is recorded. -/
theorem c1_counterexample :
    parseWithTreeSitterAst (unitAst "Foo") "Foo.cs" = ([], []) ∧
      isValidTypeName "Foo" = false := by
  refine ⟨?_, ?_⟩ <;> decide

/-- C1 (amended): with a type name long enough to pass the validity filter
(here `Fooo`), the minimal unit yields exactly one type symbol, one
implements-reference to `IBar`, and one method symbol `Baz` whose
enclosing type is the class. -/
theorem c1_amended :
    parseWithTreeSitterAst (unitAst "Fooo") "Fooo.cs" =
      ([{ name := "Fooo", kind := "class", file := "Fooo.cs", line := 1,
          signature := "public class Fooo : IBar", ns := "",
          parentClass := "", baseClass := "", interfaces := ["IBar"],
          modifiers := ["public"] },
        { name := "Baz", kind := "method", file := "Fooo.cs", line := 1,
          signature := "void Baz()", ns := "", parentClass := "Fooo",
          baseClass := "", interfaces := [], modifiers := ["public"] }],
       [{ fromFile := "Fooo.cs", fromSymbol := "Fooo", toSymbol := "IBar",
          refType := "implements" }]) := by
  decide

/-- C2 (counterexample): the fallback raw-text path applies no
identifier-validity filter: on `public class foo \x7b` it emits a type symbol
named `foo`, although `foo` fails `_is_valid_type_name` (lowercase start,
length 3). -/
theorem c2_counterexample :
    (parseWithRegex "public class foo \x7b" "A.cs").1.map Symbol.name = ["foo"] ∧
      isValidTypeName "foo" = false := by
  refine ⟨?_, ?_⟩ <;> decide

/-- C2 (amended): the validity filter is applied on the primary
(syntax-tree) path only — every type symbol it emits has a name that
passed `_is_valid_type_name` (member symbols carry kinds `method` /
`property`); the fallback path (see the counterexample) applies no such
filter. -/
theorem c2_amended : ∀ (fp ns pc : String) (f : TSForest) (s : Symbol),
    s ∈ (extractTypesForest fp ns pc f).1 →
    (s.kind = "class" ∨ s.kind = "struct" ∨ s.kind = "interface" ∨
      s.kind = "enum") →
    isValidTypeName s.name = true := by
  intro fp ns pc f s hs hk
  rcases extractTypesForest_names fp ns pc f s hs with h | h | h
  · exact h
  · rcases hk with hk | hk | hk | hk <;> simp_all
  · rcases hk with hk | hk | hk | hk <;> simp_all

/-- C2 (witness): the amended theorem applied to the concrete unit of C1:
the extracted class symbol `Fooo` indeed passes the filter. -/
theorem c2_amended_witness : isValidTypeName "Fooo" = true :=
  c2_amended "Fooo.cs" "" "" (forest [classDeclAst "Fooo"])
    { name := "Fooo", kind := "class", file := "Fooo.cs", line := 1,
      signature := "public class Fooo : IBar", ns := "",
      parentClass := "", baseClass := "", interfaces := ["IBar"],
      modifiers := ["public"] }
    (by decide) (Or.inl rfl)

/-- A two-class module document for the tier-2 trim. -/
def l2LinesEx : List String :=
  ["# Proj Repo Map (L2)", "", "## Core (2 classes, rank: 2.00)", "",
   "### public class Alpha : IThing", "- void RunA()", "",
   "### public class Beta", "- void RunB()", ""]

set_option maxRecDepth 40000 in
/-- C3 (counterexample): the claim says tier-2 trimming removes whole
*module* sections.  With the fallback token counter and budget 30, one
trim step removes only the trailing class section `### public class Beta`
(class headers also start with `##`), leaving module `Core` truncated in
the middle — not a whole-module removal. -/
theorem c3_counterexample :
    trimL2 (fun s => s.length / 4) 30 l2LinesEx =
      ["# Proj Repo Map (L2)", "", "## Core (2 classes, rank: 2.00)", "",
       "### public class Alpha : IThing", "- void RunA()", ""] := by
  decide

/-- C3 (amended): tier-2 over-budget trimming removes whole *sections*
from the end, where a section starts at the nearest preceding line
beginning with `##` (either a module `##` header or a class `###` header):
each step deletes the trailing run of non-header lines together with that
header line, repeating until the document is within the token budget or no
lines remain. -/
theorem c3_amended : ∀ (count : String → Nat) (maxT : Nat) (lines : List String),
    (trimL2 count maxT lines = [] ∨
      count (joinLines (trimL2 count maxT lines)) ≤ maxT) ∧
    (count (joinLines lines) > maxT → lines ≠ [] →
      trimL2 count maxT lines = trimL2 count maxT (sectionDrop lines)) ∧
    (∃ suf, lines = dropTrailNonHeader lines ++ suf ∧
      ∀ s ∈ suf, isHeaderLine s = false) ∧
    (dropTrailNonHeader lines = [] ∨
      ∃ pre h, dropTrailNonHeader lines = pre ++ [h] ∧ isHeaderLine h = true ∧
        sectionDrop lines = pre) := by
  intro count maxT lines
  refine ⟨trimL2Go_spec count maxT lines.length lines le_rfl, ?_, ?_, ?_⟩
  · intro hover hne
    rcases hlen : lines.length with _ | k
    · exact absurd (List.length_eq_zero.mp hlen) hne
    · have hcond : count (joinLines lines) > maxT ∧ lines ≠ [] := ⟨hover, hne⟩
      have hstep : trimL2 count maxT lines =
          trimL2Go count maxT k (sectionDrop lines) := by
        unfold trimL2
        rw [hlen, trimL2Go, if_pos hcond]
      rw [hstep]
      unfold trimL2
      have hlt := sectionDrop_length_lt lines hne
      exact trimL2Go_congr count maxT k (sectionDrop lines).length
        (sectionDrop lines) (by omega) le_rfl
  · exact dropTrailNonHeader_decomp lines
  · exact dropTrailNonHeader_last lines

set_option maxRecDepth 40000 in
/-- C3 (witness): one concrete over-budget step equals dropping the last
section. -/
theorem c3_amended_witness :
    trimL2 (fun s => s.length / 4) 30 l2LinesEx =
      trimL2 (fun s => s.length / 4) 30 (sectionDrop l2LinesEx) :=
  (c3_amended (fun s => s.length / 4) 30 l2LinesEx).2.1 (by decide) (by decide)

/-- C4: after trimming, each tier document is within its token budget
unless it has been reduced to the code's irreducible floor: at most 10
lines for tier 1 (the header block plus the final line), the empty
document for tier 2, and at most 5 lines (the fixed header) for tier 3.
This holds for every token counter, budget and document. -/
theorem c4_trim_budgets : ∀ (count : String → Nat) (b1 b2 b3 : Nat)
    (l1 l2 l3 : List String),
    (count (joinLines (trimL1 count b1 l1)) ≤ b1 ∨
      (trimL1 count b1 l1).length ≤ 10) ∧
    (count (joinLines (trimL2 count b2 l2)) ≤ b2 ∨
      trimL2 count b2 l2 = []) ∧
    (count (joinLines (trimL3 count b3 l3)) ≤ b3 ∨
      (trimL3 count b3 l3).length ≤ 5) :=
  fun count b1 b2 b3 l1 l2 l3 =>
    ⟨trimL1Go_spec count b1 l1.length l1 le_rfl,
     Or.symm (trimL2Go_spec count b2 l2.length l2 le_rfl),
     trimL3Go_spec count b3 l3.length l3 le_rfl⟩

/-- C5 (counterexample): with equal *negative* boosts the monotonicity
direction flips: in `st5` the symbols `A` and `B` both have boost `-1`,
`A` has in-degree 1 and `B` in-degree 0, yet `rank(A) = -1 < 0 = rank(B)`,
refuting `in_degree(A) > in_degree(B) → rank(A) ≥ rank(B)` as stated. -/
theorem c5_counterexample :
    st5.graph = some g5 ∧
    (st5.symbolInfo.lookup "A").map SymbolInfo.boost =
      (st5.symbolInfo.lookup "B").map SymbolInfo.boost ∧
    inDegree g5 "A" = 1 ∧ inDegree g5 "B" = 0 ∧
    computeSimpleRanks st5 = [("A", -1), ("B", 0)] ∧
    ¬((-1 : ℚ) ≥ (0 : ℚ)) := by
  refine ⟨?_, ?_, by decide, by decide, ?_, by norm_num⟩
  · norm_num +decide [st5, g5, addReference, addSymbol, dictInsert, initRanker,
      addNodeG, addEdgeG]
  · norm_num +decide [st5, addReference, addSymbol, dictInsert, initRanker,
      addNodeG, addEdgeG, lookup_cons_str]
  · norm_num +decide [computeSimpleRanks, st5, addReference, addSymbol,
      dictInsert, initRanker, addNodeG, addEdgeG, inDegree]

/-- C5 (amended): the fallback rank is
`in_degree / max(in_degree over graph nodes) × boost` (with total rational
division, so that the all-zero-degree case gives 0, matching the code's
explicit guard); names absent from the graph get rank 0; and the
monotonicity `in_degree(A) > in_degree(B) → rank(A) ≥ rank(B)` holds for
equal *nonnegative* boosts. -/
theorem c5_amended : ∀ (st : RankerState) (g : Graph), st.graph = some g →
    (computeSimpleRanks st = st.symbolInfo.map (fun p =>
      (p.1, (refCount g p.1 : ℚ) / (maxInDeg g : ℚ) * p.2.boost))) ∧
    (∀ (s : String) (b : ℚ), s ∉ g.nodes →
      (refCount g s : ℚ) / (maxInDeg g : ℚ) * b = 0) ∧
    (∀ (A B : String) (b : ℚ), 0 ≤ b → refCount g B < refCount g A →
      (refCount g B : ℚ) / (maxInDeg g : ℚ) * b ≤
        (refCount g A : ℚ) / (maxInDeg g : ℚ) * b) := by
  intro st g hg
  refine ⟨computeSimpleRanks_formula st g hg, ?_, ?_⟩
  · intro s b hs
    simp [refCount, hs]
  · intro A B b hb hAB
    have hApos : 0 < refCount g A := by omega
    have hAmem : A ∈ g.nodes := by
      by_contra hA
      simp [refCount, hA] at hApos
    have hMax : refCount g A ≤ maxInDeg g := refCount_le_maxInDeg g A
    have hMpos : (0 : ℚ) < (maxInDeg g : ℚ) := by
      have : 0 < maxInDeg g := by omega
      exact_mod_cast this
    have hcast : (refCount g B : ℚ) ≤ (refCount g A : ℚ) := by
      exact_mod_cast le_of_lt hAB
    have hdiv : (refCount g B : ℚ) / (maxInDeg g : ℚ) ≤
        (refCount g A : ℚ) / (maxInDeg g : ℚ) :=
      (div_le_div_iff_of_pos_right hMpos).mpr hcast
    exact mul_le_mul_of_nonneg_right hdiv hb

/-- C5 (witness): the amended monotonicity at boost `2` on `st5`'s graph. -/
theorem c5_amended_witness :
    (refCount g5 "B" : ℚ) / (maxInDeg g5 : ℚ) * 2 ≤
      (refCount g5 "A" : ℚ) / (maxInDeg g5 : ℚ) * 2 :=
  (c5_amended st5 g5 (by
    norm_num +decide [st5, g5, addReference, addSymbol, dictInsert, initRanker,
      addNodeG, addEdgeG])).2.2 "A" "B" 2 (by norm_num) (by decide)

/-- C6 (counterexample): the claim says equal scores preserve the order in
which symbols were first added to the ranker (`add_symbol`).  In `st6`
both references of the two-cycle `A <-> B` were recorded before the
symbols, so the graph holds node `A` before `B` while `symbol_info` holds
`B` before `A`.  PageRank scores both `1/2`; the backend's result is keyed
in graph-node order, the stable sort keeps it, and `get_ranked_symbols`
returns `A` before `B` — the reverse of the order in which the symbols
were added. -/
theorem c6_counterexample :
    (getRankedSymbols st6 none).map (fun e => e.1) = ["A", "B"] ∧
    (getRankedSymbols st6 none).map (fun e => e.2.1) = [1/2, 1/2] ∧
    st6.symbolInfo.map Prod.fst = ["B", "A"] := by
  refine ⟨?_, ?_, ?_⟩
  · rw [getRanked_st6]
    rfl
  · rw [getRanked_st6]
    rfl
  · rw [st6_fields]
    rfl

/-- C6 (amended): `get_ranked_symbols` sorts by score descending with a
stable sort: entries with equal scores keep the order of the computed
ranks sequence (never re-ordered by name or any other key).  On the
fallback path that sequence is in `symbol_info` insertion order, i.e. the
order in which symbols were first added via `add_symbol`; on the primary
path it is graph-node insertion order, which can differ (see the
counterexample). -/
theorem c6_amended : ∀ st : RankerState,
    (getRankedSymbols st none).Pairwise scoreGE ∧
    (∀ q : ℚ, (getRankedSymbols st none).filter (fun e => decide (e.2.1 = q)) =
      ((computeRanks st).map (fun p => (p.1, p.2, st.symbolInfo.lookup p.1))).filter
        (fun e => decide (e.2.1 = q))) ∧
    (st.graph = none →
      ((computeRanks st).map (fun p => (p.1, p.2, st.symbolInfo.lookup p.1))).map
        (fun e => e.1) = st.symbolInfo.map Prod.fst) := by
  intro st
  refine ⟨sortRanked_sorted _, fun q => sortRanked_filter_stable _ q, ?_⟩
  intro h
  rw [computeRanks_noNx_zero st h, List.map_map, List.map_map]
  exact List.map_congr_left (fun p _ => rfl)

/-- C6 (witness): the amended theorem at the networkx-free state `st9`. -/
theorem c6_amended_witness :
    (getRankedSymbols st9 none).Pairwise scoreGE ∧
    ((computeRanks st9).map (fun p => (p.1, p.2, st9.symbolInfo.lookup p.1))).map
      (fun e => e.1) = st9.symbolInfo.map Prod.fst :=
  ⟨(c6_amended st9).1, (c6_amended st9).2.2 rfl⟩

/-- C7: `_calculate_boost` returns the maximum boost among all matching
rules with a floor of `1.0` (a fold of `max`, not a product), where a rule
matches through its `prefix` key only when the name extends the prefix and
the character immediately following it is uppercase (`ruleMatches` /
`prefixRuleHit`), or through its `suffix` / `contains` keys. -/
theorem c7_boost : ∀ (name : String) (rules : List BoostRule),
    (calcBoost name rules =
      (rules.filter (ruleMatches name)).foldl (fun a r => max a (ruleBoost r)) 1) ∧
    1 ≤ calcBoost name rules := by
  intro name rules
  have heq := foldl_calcBoostStep name rules 1
  refine ⟨heq, ?_⟩
  unfold calcBoost
  rw [heq]
  exact foldl_max_boost_init _ 1

/-- C8: `compute_ranks` never fails the run: whenever the backend is
unavailable (no networkx, so the graph is `None`), the graph is empty, or
the backend's power iteration fails, it returns the in-degree fallback
ranking.  (In the embedding the exception of `nx.pagerank` is the `none`
result of `pagerankSpec`, and `compute_ranks` is a total function.) -/
theorem c8_fallback : ∀ st : RankerState,
    (st.graph = none ∨
      (∃ g, st.graph = some g ∧ g.nodes = []) ∨
      (∃ g, st.graph = some g ∧
        pagerankSpec g st.alpha st.maxIter st.tol = none)) →
    computeRanks st = computeSimpleRanks st := by
  intro st h
  rcases h with h | ⟨g, hg, he⟩ | ⟨g, hg, hpr⟩
  · exact computeRanks_noNx st h
  · exact computeRanks_emptyGraph st g hg (by simp [he])
  · exact computeRanks_backendFail st g hg hpr

/-- C8 (witness): the fallback equation at the networkx-free initial
state. -/
theorem c8_fallback_witness :
    computeRanks initRankerNoNx = computeSimpleRanks initRankerNoNx :=
  c8_fallback initRankerNoNx (Or.inl rfl)

/-- C9: when the graph backend is unavailable (graph `None`) every added
symbol gets rank exactly 0, whatever references were recorded (they are
no-ops) and whatever its boost, and the ranked output order degenerates to
`symbol_info` insertion order. -/
theorem c9_no_backend : ∀ st : RankerState, st.graph = none →
    (computeRanks st = st.symbolInfo.map (fun p => (p.1, (0 : ℚ)))) ∧
    ((getRankedSymbols st none).map (fun e => e.1) =
      st.symbolInfo.map Prod.fst) ∧
    (∀ f t : String, addReference f t st = st) := by
  intro st h
  have hz := computeRanks_noNx_zero st h
  refine ⟨hz, ?_, ?_⟩
  · have hall : ∀ e ∈ (computeRanks st).map
        (fun p => (p.1, p.2, st.symbolInfo.lookup p.1)), e.2.1 = (0 : ℚ) := by
      intro e he
      rw [hz, List.map_map] at he
      rcases List.mem_map.mp he with ⟨p, _, rfl⟩
      rfl
    have hsort : getRankedSymbols st none = (computeRanks st).map
        (fun p => (p.1, p.2, st.symbolInfo.lookup p.1)) :=
      sortRanked_const_score _ 0 hall
    rw [hsort, List.map_map]
    rw [hz, List.map_map]
    exact List.map_congr_left (fun p _ => rfl)
  · intro f t
    rcases st with ⟨a, mi, tol, gr, si⟩
    simp only [addReference]
    simp at h
    rw [h]
    rfl

/-- C9 (witness): on `st9` (one symbol `Y` with boost 5, one recorded
reference) the rank is 0, the output order is the insertion order, and
recording a reference is a no-op. -/
theorem c9_no_backend_witness :
    computeRanks st9 = [("Y", 0)] ∧
    (getRankedSymbols st9 none).map (fun e => e.1) = ["Y"] ∧
    addReference "P" "Q" st9 = st9 := by
  have h := c9_no_backend st9 rfl
  refine ⟨h.1.trans ?_, h.2.1.trans ?_, h.2.2 "P" "Q"⟩
  · norm_num +decide [st9, addSymbol, addReference, dictInsert, initRankerNoNx]
  · norm_num +decide [st9, addSymbol, addReference, dictInsert, initRankerNoNx]

/-- C10: a name that occurs only as a reference target (a graph node with
no `symbol_info` entry) is returned by the primary path of
`get_ranked_symbols` as a ranked entry whose info is the empty dict
(`none` here), while the fallback ranking omits it entirely — so the set
of returned names depends on which strategy ran. -/
theorem c10_strategy_dependent : ∀ (st : RankerState) (g : Graph)
    (n : String) (r0 : ℚ) (pr : List (String × ℚ)),
    st.graph = some g →
    pagerankSpec g st.alpha st.maxIter st.tol = some pr →
    (n, r0) ∈ pr →
    st.symbolInfo.lookup n = none →
    ((n, r0, (none : Option SymbolInfo)) ∈ getRankedSymbols st none) ∧
    ((computeSimpleRanks st).filter (fun p => p.1 == n) = []) := by
  intro st g n r0 pr hg hpr hmem hsym
  have hkeys : pr.map Prod.fst = g.nodes :=
    pagerankSpec_keys g st.alpha st.maxIter st.tol pr hpr
  have hn : n ∈ g.nodes := by
    rw [← hkeys]
    exact List.mem_map_of_mem Prod.fst hmem
  have hne : g.nodes.isEmpty = false := by
    cases hcase : g.nodes with
    | nil => rw [hcase] at hn; simp at hn
    | cons a l => rfl
  have hcr := computeRanks_primary st g pr hg hne hpr
  constructor
  · have h1 : (n, r0 * (((st.symbolInfo.lookup n).map SymbolInfo.boost).getD 1)) ∈
        computeRanks st := by
      rw [hcr]
      exact List.mem_map_of_mem _ hmem
    rw [hsym] at h1
    simp only [Option.map_none', Option.getD_none, mul_one] at h1
    have h2 : (n, r0, st.symbolInfo.lookup n) ∈ (computeRanks st).map
        (fun p => (p.1, p.2, st.symbolInfo.lookup p.1)) := by
      have := List.mem_map_of_mem
        (fun p : String × ℚ => (p.1, p.2, st.symbolInfo.lookup p.1)) h1
      simpa using this
    rw [hsym] at h2
    exact (sortRanked_perm _).mem_iff.mpr h2
  · refine List.filter_eq_nil_iff.mpr (fun p hp => ?_)
    rcases List.mem_map.mp (by
      have : computeSimpleRanks st = st.symbolInfo.map (fun q =>
          (q.1, (refCount g q.1 : ℚ) / (maxInDeg g : ℚ) * q.2.boost)) :=
        computeSimpleRanks_formula st g hg
      rw [this] at hp
      exact hp) with ⟨q, hq, rfl⟩
    have := lookup_none_ne n st.symbolInfo hsym q hq
    simpa using this

/-- C10 (witness): in `st10` the name `B` occurs only as a reference
target; the primary path returns it with score 1/2 and empty info, the
fallback contains no entry for it. -/
theorem c10_strategy_dependent_witness :
    (("B", (1/2 : ℚ), (none : Option SymbolInfo)) ∈ getRankedSymbols st10 none) ∧
    ((computeSimpleRanks st10).filter (fun p => p.1 == "B") = []) :=
  c10_strategy_dependent st10 g10 "B" (1/2) [("A", 1/2), ("B", 1/2)]
    (by rw [st10_fields]) (by rw [st10_fields]; exact pg10_eval)
    (List.mem_cons_of_mem ("A", 1/2) (List.mem_cons_self ("B", 1/2) []))
    (by rw [st10_fields]; rfl)

end CSRM
